import Mathlib

/-!
# Verification of the golf practice dashboard's derivation functions

Shallow embedding of the pure derivation functions of the repository
`goldenpants13/golf_practice`:

* `current_streak` and `longest_streak` from `src/utils/data_manager.py`
  (calendar dates are embedded as their ordinal numbers, of type `ℤ`,
  exactly as the code manipulates them via `date.toordinal`);
* `score_to_handicap` from `src/pages/2_Short_Game_Testing.py`;
* `calculate_grade` from `src/pages/5_Wedge_Ladder.py`;
* the rolling-average transform `Series.rolling(window, min_periods=1).mean()`
  used in `src/pages/2_Short_Game_Testing.py` and `src/pages/5_Wedge_Ladder.py`;
* `swedish_putting_handicap` and `swedish_level_label` from
  `src/pages/6_Putting_Testing.py`.

Decimal quantities (handicaps, percentages, scores) are embedded as `ℚ`.
-/

/-! ## Walks over date sets

`countRun δ s f a` walks from `a` in steps of `δ` (one calendar day at a
time when `δ = ±1`), counting how many consecutive stops are members of
`s`, and stopping at the first missing one; `f` is recursion fuel, which
is harmless as soon as it is at least the number of distinct members of
`s` (`countRun_stable`). It is the specification-side meaning of
"walk one day at a time, counting each consecutive day present in the
set, stopping at the first missing day". -/
def countRun (δ : ℤ) (s : List ℤ) : ℕ → ℤ → ℕ
  | 0, _ => 0
  | f + 1, a => if a ∈ s then countRun δ s f (a + δ) + 1 else 0

theorem countRun_congr {s t : List ℤ} (h : ∀ x : ℤ, x ∈ s ↔ x ∈ t) (δ : ℤ) :
    ∀ (f : ℕ) (a : ℤ), countRun δ s f a = countRun δ t f a := by
  intro f
  induction f with
  | zero => intro a; rfl
  | succ f ih =>
    intro a
    simp only [countRun, ih (a + δ)]
    by_cases ha : a ∈ s
    · rw [if_pos ha, if_pos ((h a).mp ha)]
    · rw [if_neg ha, if_neg (fun hc => ha ((h a).mpr hc))]

theorem countRun_mono (δ : ℤ) (s : List ℤ) :
    ∀ {f g : ℕ}, f ≤ g → ∀ a : ℤ, countRun δ s f a ≤ countRun δ s g a := by
  intro f
  induction f with
  | zero => intro g _ a; exact Nat.zero_le _
  | succ f ih =>
    intro g hfg a
    obtain ⟨g, rfl⟩ : ∃ g', g = g' + 1 := ⟨g - 1, by omega⟩
    simp only [countRun]
    by_cases ha : a ∈ s
    · simp only [if_pos ha]
      exact Nat.succ_le_succ (ih (by omega) (a + δ))
    · simp [if_neg ha]

theorem countRun_of_lt_fuel (δ : ℤ) (s : List ℤ) :
    ∀ {f : ℕ} {a : ℤ}, countRun δ s f a < f →
      ∀ {g : ℕ}, f ≤ g → countRun δ s g a = countRun δ s f a := by
  intro f
  induction f with
  | zero => intro a h; omega
  | succ f ih =>
    intro a h g hfg
    obtain ⟨g, rfl⟩ : ∃ g', g = g' + 1 := ⟨g - 1, by omega⟩
    simp only [countRun] at h ⊢
    by_cases ha : a ∈ s
    · simp only [if_pos ha] at h ⊢
      have := ih (a := a + δ) (by omega) (g := g) (by omega)
      omega
    · simp [if_neg ha]

theorem countRun_hits (δ : ℤ) (s : List ℤ) :
    ∀ (f : ℕ) (a : ℤ) (i : ℕ), i < countRun δ s f a → a + (i : ℤ) * δ ∈ s := by
  intro f
  induction f with
  | zero => intro a i h; simp [countRun] at h
  | succ f ih =>
    intro a i h
    simp only [countRun] at h
    by_cases ha : a ∈ s
    · rw [if_pos ha] at h
      cases i with
      | zero => simpa using ha
      | succ i =>
        have := ih (a + δ) i (by omega)
        have heq : a + δ + (i : ℤ) * δ = a + ((i : ℕ) + 1 : ℤ) * δ := by ring
        rw [heq] at this
        simpa using this
    · rw [if_neg ha] at h; omega

theorem countRun_le_dedup_length (δ : ℤ) (hδ : δ ≠ 0) (s : List ℤ) (f : ℕ) (a : ℤ) :
    countRun δ s f a ≤ s.dedup.length := by
  set k := countRun δ s f a with hk
  have hmem : ∀ i ∈ Finset.range k, a + (i : ℤ) * δ ∈ s.toFinset := by
    intro i hi
    rw [List.mem_toFinset]
    exact countRun_hits δ s f a i (Finset.mem_range.mp hi)
  have hinj : Set.InjOn (fun i : ℕ => a + (i : ℤ) * δ) (Finset.range k) := by
    intro i _ j _ hij
    simp only at hij
    have : ((i : ℤ) - (j : ℤ)) * δ = 0 := by linarith [hij]
    rcases mul_eq_zero.mp this with h | h
    · omega
    · exact absurd h hδ
  have hcard := Finset.card_le_card_of_injOn _ hmem hinj
  rw [Finset.card_range] at hcard
  calc k ≤ s.toFinset.card := hcard
    _ = s.dedup.length := List.card_toFinset s

theorem countRun_stable (δ : ℤ) (hδ : δ ≠ 0) (s : List ℤ) {f : ℕ}
    (hf : s.dedup.length ≤ f) (a : ℤ) :
    countRun δ s f a = countRun δ s s.dedup.length a := by
  set D := s.dedup.length with hD
  rcases lt_or_eq_of_le (countRun_le_dedup_length δ hδ s D a) with h | h
  · exact countRun_of_lt_fuel δ s h hf
  · have h1 : countRun δ s f a ≤ D := countRun_le_dedup_length δ hδ s f a
    have h2 : countRun δ s D a ≤ countRun δ s f a := countRun_mono δ s hf a
    omega

/-! ## The streak calculators (`src/utils/data_manager.py`)

`csGo` is the loop body of `current_streak`:
```
streak = 0
for d in reversed(dates):
    if d == check:
        streak += 1
        check = date.fromordinal(check.toordinal() - 1)
    elif d < check:
        break
return streak
```
-/
def csGo : List ℤ → ℤ → ℕ → ℕ
  | [], _, streak => streak
  | d :: rest, check, streak =>
    if d = check then csGo rest (check - 1) (streak + 1)
    else if d < check then streak
    else csGo rest check streak

/-- `current_streak` from `src/utils/data_manager.py`; `dates` is the list
the code receives (its callers pass `all_practice_dates()`, sorted
ascending), `today` the value of `date.today()`.
```
if not dates:
    return 0
today = date.today()
if dates[-1] < today:
    check = dates[-1]
else:
    check = today
```
followed by the loop `csGo` over `reversed(dates)`. -/
def current_streak (dates : List ℤ) (today : ℤ) : ℕ :=
  match dates.getLast? with
  | none => 0
  | some last =>
    csGo dates.reverse (if last < today then last else today) 0

/-- The claim's literal reading of the anchor rule: the anchor is `today`
if today is on-or-after the latest logged date, otherwise the latest
logged date itself; then walk backward from the anchor counting each
consecutive day present, stopping at the first missing day. -/
def current_streak_claimed (dates : List ℤ) (today : ℤ) : ℕ :=
  match dates.getLast? with
  | none => 0
  | some last =>
    countRun (-1) dates dates.length (if last ≤ today then today else last)

theorem countRun_cons_of_lt {d : ℤ} {rest : List ℤ} :
    ∀ (g : ℕ) (x : ℤ), x < d →
      countRun (-1) (d :: rest) g x = countRun (-1) rest g x := by
  intro g
  induction g with
  | zero => intro x _; rfl
  | succ g ihg =>
    intro x hx
    simp only [countRun]
    have hmem : (x ∈ d :: rest) ↔ (x ∈ rest) := by
      simp only [List.mem_cons, or_iff_right_iff_imp]
      intro h; omega
    by_cases hxr : x ∈ rest
    · rw [if_pos (hmem.mpr hxr), if_pos hxr, ihg (x + -1) (by omega)]
    · rw [if_neg (fun h => hxr (hmem.mp h)), if_neg hxr]

theorem csGo_eq_countRun :
    ∀ (r : List ℤ) (c : ℤ) (s : ℕ) (f : ℕ), r.Sorted (· ≥ ·) → r.length ≤ f →
      csGo r c s = s + countRun (-1) r f c := by
  intro r
  induction r with
  | nil =>
    intro c s f _ _
    cases f with
    | zero => simp [csGo, countRun]
    | succ f => simp [csGo, countRun]
  | cons d rest ih =>
    intro c s f hsorted hlen
    obtain ⟨f, rfl⟩ : ∃ f', f = f' + 1 :=
      ⟨f - 1, by simp only [List.length_cons] at hlen; omega⟩
    have hrest : rest.Sorted (· ≥ ·) := (List.sorted_cons.mp hsorted).2
    have hge : ∀ x ∈ rest, x ≤ d := (List.sorted_cons.mp hsorted).1
    have hlen' : rest.length ≤ f := by
      simp only [List.length_cons] at hlen; omega
    rcases lt_trichotomy d c with hdc | hdc | hdc
    · -- d < c: the scan stops; c is not a member at all
      have hnotmem : c ∉ d :: rest := by
        intro hc
        rcases List.mem_cons.mp hc with rfl | hc
        · omega
        · have := hge c hc; omega
      have h1 : csGo (d :: rest) c s = s := by
        simp only [csGo]
        rw [if_neg (ne_of_lt hdc), if_pos hdc]
      have h2 : countRun (-1) (d :: rest) (f + 1) c = 0 := by
        simp only [countRun]
        rw [if_neg hnotmem]
      rw [h1, h2]
      omega
    · -- d = c: count it and walk to c - 1
      subst hdc
      have h1 : csGo (d :: rest) d s = csGo rest (d - 1) (s + 1) := by
        simp [csGo]
      have h2 : countRun (-1) (d :: rest) (f + 1) d
          = countRun (-1) rest f (d + -1) + 1 := by
        simp only [countRun]
        rw [if_pos (List.mem_cons_self d rest), countRun_cons_of_lt f (d + -1) (by omega)]
      rw [h1, h2, show d - 1 = d + -1 by ring, ih (d + -1) (s + 1) f hrest hlen']
      omega
    · -- d > c: skip d, same check
      have hne : ¬ d = c := ne_of_gt hdc
      have hnlt : ¬ d < c := by omega
      have h1 : csGo (d :: rest) c s = csGo rest c s := by
        simp only [csGo]
        rw [if_neg hne, if_neg hnlt]
      have h2 : countRun (-1) (d :: rest) (f + 1) c = countRun (-1) rest (f + 1) c :=
        countRun_cons_of_lt (f + 1) c hdc
      rw [h1, h2, ih c s (f + 1) hrest (by omega)]

/-- C1 (counterexample): the claim's anchor rule — "the anchor is `today`
if today is on-or-after the latest logged date, otherwise the latest
logged date itself" — is reversed with respect to the code. For the date
set `{0}` with `today = 1` (a streak that ended "yesterday"), the code
anchors at the latest logged date `0` and reports a streak of 1, while
the walk prescribed by the claim anchors at `today = 1`, finds it
missing, and reports 0 — collapsing exactly the streak the claim says
must not collapse. -/
theorem current_streak_anchor_counterexample :
    current_streak [0] 1 = 1 ∧ current_streak_claimed [0] 1 = 0 ∧
      current_streak [0] 1 ≠ current_streak_claimed [0] 1 := by
  refine ⟨by decide, by decide, by decide⟩

/-- C1 (amended): for every set of distinct calendar dates (embedded as a
strictly ascending list, as `all_practice_dates` produces) and every
value of `today`, `current_streak` returns 0 on empty input, and
otherwise the count obtained by walking backward one day at a time from
the anchor — where the anchor is the latest logged date if it is
strictly before `today` (so a streak that ended yesterday still reports
its length), and `today` otherwise — counting each consecutive day
present in the set and stopping at the first missing day. -/
theorem current_streak_walks_back_from_anchor (dates : List ℤ) (today : ℤ)
    (hs : dates.Sorted (· < ·)) :
    (dates = [] → current_streak dates today = 0) ∧
    (∀ last, dates.getLast? = some last →
      current_streak dates today =
        countRun (-1) dates dates.length (if last < today then last else today)) := by
  constructor
  · rintro rfl
    rfl
  · intro last hlast
    have hrev : dates.reverse.Sorted (· ≥ ·) := by
      rw [List.Sorted, List.pairwise_reverse]
      exact hs.imp (fun h => le_of_lt h)
    have hcs : current_streak dates today
        = csGo dates.reverse (if last < today then last else today) 0 := by
      unfold current_streak
      rw [hlast]
    have h := csGo_eq_countRun dates.reverse
      (if last < today then last else today) 0 dates.reverse.length hrev le_rfl
    rw [hcs, h, countRun_congr (fun x => List.mem_reverse) (-1), List.length_reverse]
    omega

/-- C1 (witness): the amended theorem at the concrete date set
`{0, 1, 3}` with `today = 5`: the anchor is the latest date 3, and the
backward walk counts exactly one day. -/
theorem current_streak_walks_back_from_anchor_witness :
    List.Sorted (· < ·) [(0 : ℤ), 1, 3] ∧
      current_streak [0, 1, 3] 5 = countRun (-1) [0, 1, 3] 3 3 ∧
      current_streak [0, 1, 3] 5 = 1 := by
  refine ⟨by decide, ?_, by decide⟩
  have h := (current_streak_walks_back_from_anchor [0, 1, 3] 5 (by decide)).2 3 (by rfl)
  simpa using h

/-- `lsGo` is the loop of `longest_streak` from `src/utils/data_manager.py`:
```
best = 1
run = 1
for i in range(1, len(dates)):
    if (dates[i].toordinal() - dates[i - 1].toordinal()) == 1:
        run += 1
        best = max(best, run)
    else:
        run = 1
return best
```
-/
def lsGo : ℤ → ℕ → ℕ → List ℤ → ℕ
  | _, _, best, [] => best
  | prev, run, best, x :: xs =>
    if x - prev = 1 then lsGo x (run + 1) (max best (run + 1)) xs
    else lsGo x 1 best xs

/-- `longest_streak` from `src/utils/data_manager.py` (`if not dates:
return 0`, then the scan `lsGo` starting at the first element). -/
def longest_streak : List ℤ → ℕ
  | [] => 0
  | d :: rest => lsGo d 1 1 rest

theorem getLast?_of_ne_nil : ∀ (l : List ℤ), l ≠ [] → ∃ m, l.getLast? = some m := by
  intro l
  induction l with
  | nil => intro h; exact absurd rfl h
  | cons a l ih =>
    intro _
    cases l with
    | nil => exact ⟨a, by simp⟩
    | cons b l2 =>
      obtain ⟨m, hm⟩ := ih (by simp)
      exact ⟨m, by rw [List.getLast?_cons_cons]; exact hm⟩

theorem getLast?_sorted_max : ∀ (l : List ℤ), l.Sorted (· ≤ ·) →
    ∀ m, l.getLast? = some m → m ∈ l ∧ ∀ x ∈ l, x ≤ m := by
  intro l
  induction l with
  | nil => intro _ m h; simp at h
  | cons a l ih =>
    intro hs m hm
    cases l with
    | nil =>
      simp at hm
      subst hm
      simp
    | cons b l2 =>
      rw [List.getLast?_cons_cons] at hm
      have hle := (List.sorted_cons.mp hs).1
      have hs' := (List.sorted_cons.mp hs).2
      obtain ⟨hmem, hmax⟩ := ih hs' m hm
      refine ⟨List.mem_cons_of_mem _ hmem, ?_⟩
      intro x hx
      rcases List.mem_cons.mp hx with rfl | hx
      · exact hle m hmem
      · exact hmax x hx

/-- C8 (counterexample): `longest_streak` does not treat a duplicated
date as a single occurrence. On the sorted list `[0, 1, 1, 2]` the
repeated date 1 resets the run counter, yielding 2, while the
deduplicated list `[0, 1, 2]` yields 3. -/
theorem longest_streak_duplicate_counterexample :
    longest_streak [0, 1, 1, 2] = 2 ∧ List.dedup [0, 1, 1, 2] = [0, 1, 2] ∧
      longest_streak [0, 1, 2] = 3 ∧
      longest_streak [0, 1, 1, 2] ≠ longest_streak (List.dedup [0, 1, 1, 2]) := by
  refine ⟨by decide, by decide, by decide, by decide⟩

/-- C8 (amended): `current_streak` treats a duplicated date as a single
occurrence: for every sorted-ascending list of calendar dates, possibly
containing repeated dates, and every value of `today`, its result on the
list equals its result on the deduplicated list. (`longest_streak` does
not have this property: a repeated date resets its run counter, see the
counterexample.) -/
theorem current_streak_dedup_invariant (dates : List ℤ) (today : ℤ)
    (hs : dates.Sorted (· ≤ ·)) :
    current_streak dates today = current_streak dates.dedup today := by
  rcases eq_or_ne dates [] with rfl | hne
  · rfl
  · obtain ⟨last, hlast⟩ := getLast?_of_ne_nil dates hne
    have hmemiff : ∀ x : ℤ, x ∈ dates.dedup ↔ x ∈ dates := fun x => List.mem_dedup
    have hdedup_ne : dates.dedup ≠ [] := by
      intro h0
      cases dates with
      | nil => exact hne rfl
      | cons a l =>
        have ha : a ∈ List.dedup (a :: l) := (hmemiff a).mpr (List.mem_cons_self a l)
        rw [h0] at ha
        simp at ha
    obtain ⟨last2, hlast2⟩ := getLast?_of_ne_nil dates.dedup hdedup_ne
    have hsd : dates.dedup.Sorted (· ≤ ·) :=
      List.Pairwise.sublist (List.dedup_sublist dates) hs
    obtain ⟨hm1, hmax1⟩ := getLast?_sorted_max dates hs last hlast
    obtain ⟨hm2, hmax2⟩ := getLast?_sorted_max dates.dedup hsd last2 hlast2
    have hlasteq : last2 = last :=
      le_antisymm (hmax1 _ ((hmemiff last2).mp hm2)) (hmax2 _ ((hmemiff last).mpr hm1))
    rw [hlasteq] at hlast2
    have hrev1 : dates.reverse.Sorted (· ≥ ·) := by
      rw [List.Sorted, List.pairwise_reverse]
      exact hs
    have hrev2 : dates.dedup.reverse.Sorted (· ≥ ·) := by
      rw [List.Sorted, List.pairwise_reverse]
      exact hsd
    have hfuel : dates.dedup.length ≤ dates.length :=
      List.Sublist.length_le (List.dedup_sublist dates)
    have hL : current_streak dates today
        = csGo dates.reverse (if last < today then last else today) 0 := by
      unfold current_streak
      rw [hlast]
    have hR : current_streak dates.dedup today
        = csGo dates.dedup.reverse (if last < today then last else today) 0 := by
      unfold current_streak
      rw [hlast2]
    rw [hL, hR,
      csGo_eq_countRun dates.reverse _ 0 dates.reverse.length hrev1 le_rfl,
      csGo_eq_countRun dates.dedup.reverse _ 0 dates.dedup.reverse.length hrev2 le_rfl,
      countRun_congr (fun x => List.mem_reverse) (-1),
      countRun_congr (fun x => (List.mem_reverse).trans (hmemiff x)) (-1),
      List.length_reverse, List.length_reverse,
      countRun_stable (-1) (by norm_num) dates hfuel]

/-- C8 (witness): the amended theorem at the concrete sorted list
`[0, 1, 1, 3]` (date 1 logged twice) with `today = 4`: both the raw list
and its deduplication `[0, 1, 3]` yield a current streak of 1. -/
theorem current_streak_dedup_invariant_witness :
    List.Sorted (· ≤ ·) [(0 : ℤ), 1, 1, 3] ∧
      current_streak [0, 1, 1, 3] 4 = current_streak (List.dedup [0, 1, 1, 3]) 4 ∧
      current_streak [0, 1, 1, 3] 4 = 1 := by
  refine ⟨by decide, current_streak_dedup_invariant [0, 1, 1, 3] 4 (by decide), by decide⟩

/-! ## The scan of `longest_streak` versus the longest consecutive run

`lsSpec prev run l` is the value the scan `lsGo` eventually returns when
the current run has length `run` and ends at `prev`, with `l` still to be
scanned; `chainLen prev l` is the length of the initial segment of `l`
that continues a run ending at `prev`, and `afterChain prev l` the part
of `l` after that segment. `longestRun s` is the claim-side quantity: the
greatest number of consecutive calendar days, starting at some member of
`s`, that are all present in `s`. -/
def lsSpec : ℤ → ℕ → List ℤ → ℕ
  | _, run, [] => run
  | prev, run, x :: xs =>
    if x - prev = 1 then lsSpec x (run + 1) xs else max run (lsSpec x 1 xs)

def chainLen : ℤ → List ℤ → ℕ
  | _, [] => 0
  | prev, x :: xs => if x - prev = 1 then chainLen x xs + 1 else 0

def afterChain : ℤ → List ℤ → List ℤ
  | _, [] => []
  | prev, x :: xs => if x - prev = 1 then afterChain x xs else x :: xs

def lsTail : List ℤ → ℕ
  | [] => 0
  | y :: ys => lsSpec y 1 ys

def longestRun (s : List ℤ) : ℕ :=
  (s.map (fun d => countRun 1 s s.length d)).foldr max 0

theorem le_lsSpec : ∀ (l : List ℤ) (prev : ℤ) (run : ℕ), run ≤ lsSpec prev run l := by
  intro l
  induction l with
  | nil => intro prev run; exact le_rfl
  | cons x xs ih =>
    intro prev run
    simp only [lsSpec]
    by_cases h : x - prev = 1
    · rw [if_pos h]
      exact le_trans (Nat.le_succ run) (ih x (run + 1))
    · rw [if_neg h]
      exact le_max_left _ _

theorem lsGo_eq_lsSpec : ∀ (l : List ℤ) (prev : ℤ) (run best : ℕ),
    1 ≤ run → run ≤ best → lsGo prev run best l = max best (lsSpec prev run l) := by
  intro l
  induction l with
  | nil =>
    intro prev run best _ hrb
    simp only [lsGo, lsSpec]
    omega
  | cons x xs ih =>
    intro prev run best hr hrb
    simp only [lsGo, lsSpec]
    by_cases h : x - prev = 1
    · rw [if_pos h, if_pos h, ih x (run + 1) (max best (run + 1)) (by omega) (le_max_right _ _)]
      have := le_lsSpec xs x (run + 1)
      omega
    · rw [if_neg h, if_neg h, ih x 1 best le_rfl (by omega)]
      have := le_lsSpec xs x 1
      omega

theorem lsSpec_eq_chain : ∀ (l : List ℤ) (prev : ℤ) (run : ℕ),
    lsSpec prev run l = max (run + chainLen prev l) (lsTail (afterChain prev l)) := by
  intro l
  induction l with
  | nil =>
    intro prev run
    simp [lsSpec, chainLen, afterChain, lsTail]
  | cons x xs ih =>
    intro prev run
    simp only [lsSpec, chainLen, afterChain]
    by_cases h : x - prev = 1
    · rw [if_pos h, if_pos h, if_pos h, ih x (run + 1)]
      omega
    · rw [if_neg h, if_neg h, if_neg h]
      simp only [lsTail]
      omega

theorem longest_streak_cons (d : ℤ) (rest : List ℤ) :
    longest_streak (d :: rest) = lsSpec d 1 rest := by
  have h := lsGo_eq_lsSpec rest d 1 1 le_rfl le_rfl
  have h2 := le_lsSpec rest d 1
  simp only [longest_streak]
  omega

theorem chainLen_add_afterChain_length : ∀ (l : List ℤ) (prev : ℤ),
    chainLen prev l + (afterChain prev l).length = l.length := by
  intro l
  induction l with
  | nil => intro prev; rfl
  | cons x xs ih =>
    intro prev
    simp only [chainLen, afterChain]
    by_cases h : x - prev = 1
    · rw [if_pos h, if_pos h]
      have := ih x
      simp only [List.length_cons]
      omega
    · rw [if_neg h, if_neg h]
      simp only [List.length_cons]
      omega

theorem afterChain_sublist : ∀ (l : List ℤ) (prev : ℤ), List.Sublist (afterChain prev l) l := by
  intro l
  induction l with
  | nil => intro prev; simp [afterChain]
  | cons x xs ih =>
    intro prev
    simp only [afterChain]
    by_cases h : x - prev = 1
    · rw [if_pos h]
      exact (ih x).trans (List.sublist_cons_self x xs)
    · rw [if_neg h]

theorem chain_mem : ∀ (l : List ℤ) (prev : ℤ) (i : ℕ),
    i ≤ chainLen prev l → prev + (i : ℤ) ∈ prev :: l := by
  intro l
  induction l with
  | nil =>
    intro prev i hi
    simp only [chainLen] at hi
    interval_cases i
    simp
  | cons x xs ih =>
    intro prev i hi
    simp only [chainLen] at hi
    by_cases h : x - prev = 1
    · rw [if_pos h] at hi
      cases i with
      | zero => simp
      | succ j =>
        have := ih x j (by omega)
        have heq : prev + ((j : ℕ) + 1 : ℤ) = x + (j : ℤ) := by omega
        push_cast
        rw [heq]
        exact List.mem_cons_of_mem prev this
    · rw [if_neg h] at hi
      interval_cases i
      simp

theorem afterChain_ge : ∀ (l : List ℤ) (prev : ℤ), (prev :: l).Sorted (· < ·) →
    ∀ y ∈ afterChain prev l, prev + (chainLen prev l : ℤ) + 2 ≤ y := by
  intro l
  induction l with
  | nil => intro prev _ y hy; simp [afterChain] at hy
  | cons x xs ih =>
    intro prev hs y hy
    have hpx : prev < x := (List.sorted_cons.mp hs).1 x (List.mem_cons_self x xs)
    have hs' : (x :: xs).Sorted (· < ·) := (List.sorted_cons.mp hs).2
    simp only [afterChain, chainLen] at hy ⊢
    by_cases h : x - prev = 1
    · rw [if_pos h] at hy
      rw [if_pos h]
      have := ih x hs' y hy
      push_cast
      omega
    · rw [if_neg h] at hy
      rw [if_neg h]
      rcases List.mem_cons.mp hy with rfl | hy2
      · omega
      · have := (List.sorted_cons.mp hs').1 y hy2
        omega

theorem chain_mem_split : ∀ (l : List ℤ) (prev : ℤ), (prev :: l).Sorted (· < ·) →
    ∀ y ∈ prev :: l, y ≤ prev + (chainLen prev l : ℤ) ∨ y ∈ afterChain prev l := by
  intro l
  induction l with
  | nil =>
    intro prev _ y hy
    left
    simp at hy
    simp [chainLen, hy]
  | cons x xs ih =>
    intro prev hs y hy
    have hs' : (x :: xs).Sorted (· < ·) := (List.sorted_cons.mp hs).2
    simp only [chainLen, afterChain]
    by_cases h : x - prev = 1
    · simp only [if_pos h]
      rcases List.mem_cons.mp hy with rfl | hy2
      · left; push_cast; omega
      · rcases ih x hs' y hy2 with hle | hmem
        · left; push_cast at hle ⊢; omega
        · right; exact hmem
    · simp only [if_neg h]
      rcases List.mem_cons.mp hy with rfl | hy2
      · left; omega
      · right; exact hy2

theorem chain_gap_notmem (l : List ℤ) (prev : ℤ) (hs : (prev :: l).Sorted (· < ·)) :
    prev + (chainLen prev l : ℤ) + 1 ∉ prev :: l := by
  intro hmem
  rcases chain_mem_split l prev hs _ hmem with hle | hafter
  · omega
  · have := afterChain_ge l prev hs _ hafter
    omega

theorem countRun_fwd_min : ∀ (f : ℕ) (s : List ℤ) (k : ℕ) (a : ℤ),
    (∀ i : ℕ, i < k → a + (i : ℤ) ∈ s) → a + (k : ℤ) ∉ s →
    countRun 1 s f a = min f k := by
  intro f
  induction f with
  | zero => intro s k a _ _; simp [countRun]
  | succ f ih =>
    intro s k a hhit hmiss
    cases k with
    | zero =>
      have : a ∉ s := by simpa using hmiss
      simp [countRun, this]
    | succ k =>
      have ha : a ∈ s := by simpa using hhit 0 (by omega)
      simp only [countRun, if_pos ha]
      have h1 : ∀ i : ℕ, i < k → (a + 1) + (i : ℤ) ∈ s := by
        intro i hi
        have hmem := hhit (i + 1) (by omega)
        have heq : a + ((i + 1 : ℕ) : ℤ) = (a + 1) + (i : ℤ) := by push_cast; ring
        rwa [heq] at hmem
      have h2 : (a + 1) + (k : ℤ) ∉ s := by
        have heq : a + ((k + 1 : ℕ) : ℤ) = (a + 1) + (k : ℤ) := by push_cast; ring
        rw [← heq]
        exact hmiss
      rw [ih s k (a + 1) h1 h2]
      omega

theorem countRun_fwd_stop (s : List ℤ) (b : ℤ) (hb : b ∉ s) :
    ∀ (f : ℕ) (a : ℤ), a ≤ b → countRun 1 s f a ≤ (b - a).toNat := by
  intro f
  induction f with
  | zero => intro a _; simp [countRun]
  | succ f ih =>
    intro a hab
    simp only [countRun]
    by_cases ha : a ∈ s
    · rw [if_pos ha]
      have hne : a ≠ b := fun h => hb (h ▸ ha)
      have := ih (a + 1) (by omega)
      omega
    · rw [if_neg ha]
      omega

theorem countRun_fwd_congr_ge (s t : List ℤ) (a0 : ℤ)
    (h : ∀ z : ℤ, a0 ≤ z → (z ∈ s ↔ z ∈ t)) :
    ∀ (f : ℕ) (a : ℤ), a0 ≤ a → countRun 1 s f a = countRun 1 t f a := by
  intro f
  induction f with
  | zero => intro a _; rfl
  | succ f ih =>
    intro a ha
    simp only [countRun]
    rw [ih (a + 1) (by omega)]
    by_cases has : a ∈ s
    · rw [if_pos has, if_pos ((h a ha).mp has)]
    · rw [if_neg has, if_neg (fun hc => has ((h a ha).mpr hc))]

theorem foldrMax_le_of_mem : ∀ (l : List ℤ) (g : ℤ → ℕ) (x : ℤ), x ∈ l →
    g x ≤ (l.map g).foldr max 0 := by
  intro l
  induction l with
  | nil => intro g x hx; simp at hx
  | cons y ys ih =>
    intro g x hx
    simp only [List.map_cons, List.foldr_cons]
    rcases List.mem_cons.mp hx with rfl | hx2
    · exact le_max_left _ _
    · exact le_trans (ih g x hx2) (le_max_right _ _)

theorem foldrMax_le_bound : ∀ (l : List ℤ) (g : ℤ → ℕ) (B : ℕ),
    (∀ x ∈ l, g x ≤ B) → (l.map g).foldr max 0 ≤ B := by
  intro l
  induction l with
  | nil => intro g B _; simp
  | cons y ys ih =>
    intro g B hB
    simp only [List.map_cons, List.foldr_cons]
    have h1 := hB y (List.mem_cons_self y ys)
    have h2 := ih g B (fun x hx => hB x (List.mem_cons_of_mem y hx))
    omega

theorem longestRun_block (d : ℤ) (rest : List ℤ) (hs : (d :: rest).Sorted (· < ·)) :
    longestRun (d :: rest)
      = max (chainLen d rest + 1) (longestRun (afterChain d rest)) := by
  have hsubt : List.Sublist (afterChain d rest) rest := afterChain_sublist rest d
  have hsubl : List.Sublist (afterChain d rest) (d :: rest) :=
    hsubt.trans (List.sublist_cons_self d rest)
  have htnodup : (afterChain d rest).Nodup :=
    List.Pairwise.sublist hsubl (List.Pairwise.imp (fun h => ne_of_lt h) hs)
  have hdedupt : (afterChain d rest).dedup = afterChain d rest :=
    List.dedup_eq_self.mpr htnodup
  have hlenF : chainLen d rest + 1 ≤ (d :: rest).length := by
    have := chainLen_add_afterChain_length rest d
    simp only [List.length_cons]
    omega
  have hmiss : d + (chainLen d rest : ℤ) + 1 ∉ d :: rest := chain_gap_notmem rest d hs
  have hhead : countRun 1 (d :: rest) (d :: rest).length d = chainLen d rest + 1 := by
    have hhit : ∀ i : ℕ, i < chainLen d rest + 1 → d + (i : ℤ) ∈ d :: rest :=
      fun i hi => chain_mem rest d i (by omega)
    have hmiss2 : d + ((chainLen d rest + 1 : ℕ) : ℤ) ∉ d :: rest := by
      have heq : d + ((chainLen d rest + 1 : ℕ) : ℤ) = d + (chainLen d rest : ℤ) + 1 := by
        push_cast; ring
      rw [heq]; exact hmiss
    rw [countRun_fwd_min (d :: rest).length (d :: rest) (chainLen d rest + 1) d hhit hmiss2]
    omega
  have hcnt : ∀ y ∈ afterChain d rest,
      countRun 1 (d :: rest) (d :: rest).length y
        = countRun 1 (afterChain d rest) (afterChain d rest).length y := by
    intro y hy
    have hy2 : d + (chainLen d rest : ℤ) + 2 ≤ y := afterChain_ge rest d hs y hy
    have hcongr : ∀ z : ℤ, y ≤ z → (z ∈ d :: rest ↔ z ∈ afterChain d rest) := by
      intro z hz
      constructor
      · intro hzl
        rcases chain_mem_split rest d hs z hzl with hle | hmem
        · omega
        · exact hmem
      · intro hzt
        exact hsubl.subset hzt
    have hstep1 := countRun_fwd_congr_ge (d :: rest) (afterChain d rest) y hcongr
      (d :: rest).length y le_rfl
    have hfuel : (afterChain d rest).dedup.length ≤ (d :: rest).length := by
      rw [hdedupt]
      exact le_trans (List.Sublist.length_le hsubl) le_rfl
    have hstep2 := countRun_stable 1 one_ne_zero (afterChain d rest) hfuel y
    rw [hdedupt] at hstep2
    rw [hstep1, hstep2]
  have hub : ∀ x ∈ d :: rest,
      countRun 1 (d :: rest) (d :: rest).length x
        ≤ max (chainLen d rest + 1) (longestRun (afterChain d rest)) := by
    intro x hx
    rcases chain_mem_split rest d hs x hx with hle | hxt
    · have hdx : d ≤ x := by
        rcases List.mem_cons.mp hx with rfl | hx2
        · exact le_rfl
        · exact le_of_lt ((List.sorted_cons.mp hs).1 x hx2)
      have hstop := countRun_fwd_stop (d :: rest) (d + (chainLen d rest : ℤ) + 1) hmiss
        (d :: rest).length x (by omega)
      have hbd : countRun 1 (d :: rest) (d :: rest).length x ≤ chainLen d rest + 1 := by
        omega
      omega
    · rw [hcnt x hxt]
      exact le_trans (foldrMax_le_of_mem (afterChain d rest) _ x hxt) (le_max_right _ _)
  have hle : longestRun (d :: rest)
      ≤ max (chainLen d rest + 1) (longestRun (afterChain d rest)) :=
    foldrMax_le_bound (d :: rest) _ _ hub
  have hge1 : chainLen d rest + 1 ≤ longestRun (d :: rest) := by
    rw [← hhead]
    exact foldrMax_le_of_mem (d :: rest) _ d (List.mem_cons_self d rest)
  have hge2 : longestRun (afterChain d rest) ≤ longestRun (d :: rest) := by
    apply foldrMax_le_bound
    intro y hy
    rw [← hcnt y hy]
    exact foldrMax_le_of_mem (d :: rest) _ y (hsubl.subset hy)
  omega

theorem longest_streak_eq_aux : ∀ (n : ℕ) (l : List ℤ), l.length ≤ n →
    l.Sorted (· < ·) → longest_streak l = longestRun l := by
  intro n
  induction n with
  | zero =>
    intro l hlen _
    have hnil : l = [] := List.length_eq_zero.mp (by omega)
    subst hnil
    rfl
  | succ n ih =>
    intro l hlen hs
    cases l with
    | nil => rfl
    | cons d rest =>
      rw [longest_streak_cons, lsSpec_eq_chain, longestRun_block d rest hs]
      have hsub := afterChain_sublist rest d
      have htail : lsTail (afterChain d rest) = longestRun (afterChain d rest) := by
        cases hAC : afterChain d rest with
        | nil => rfl
        | cons y ys =>
          rw [hAC] at hsub
          simp only [lsTail]
          rw [← longest_streak_cons]
          apply ih
          · have := List.Sublist.length_le hsub
            simp only [List.length_cons] at hlen this ⊢
            omega
          · exact List.Pairwise.sublist (hsub.trans (List.sublist_cons_self d rest)) hs
      rw [htail]
      omega

/-- C2 (counterexample): `longest_streak` does not sort its input and its
result is therefore not invariant under input order. On `[1, 0]` — the
two consecutive dates 0 and 1 presented in descending order — the code
returns 1, while the longest run of dates differing pairwise by exactly
one calendar day has length 2 (as the code itself confirms on the
ascending presentation `[0, 1]`). -/
theorem longest_streak_order_counterexample :
    longest_streak [1, 0] = 1 ∧ longestRun [1, 0] = 2 ∧
      longest_streak [0, 1] = 2 ∧
      longest_streak [1, 0] ≠ longestRun [1, 0] := by
  refine ⟨by decide, by decide, by decide, by decide⟩

/-- C2 (amended): for every collection of distinct calendar dates
presented sorted ascending (the function does not sort; its callers pass
it the sorted `all_practice_dates()`), `longest_streak` equals the
length of the longest run of dates that differ pairwise by exactly one
calendar day — the greatest number of consecutive days, starting at some
member, that are all present; it returns 0 for empty input and 1 for a
single date. -/
theorem longest_streak_eq_longestRun (dates : List ℤ) (hs : dates.Sorted (· < ·)) :
    longest_streak dates = longestRun dates ∧
      (dates = [] → longest_streak dates = 0) ∧
      (∀ d : ℤ, dates = [d] → longest_streak dates = 1) := by
  refine ⟨longest_streak_eq_aux dates.length dates le_rfl hs, ?_, ?_⟩
  · rintro rfl
    rfl
  · rintro d rfl
    rfl

/-- C2 (witness): the amended theorem at the concrete consecutive date
set `{0, 1, 2}`: the scan and the longest-run quantity both equal 3. -/
theorem longest_streak_eq_longestRun_witness :
    List.Sorted (· < ·) [(0 : ℤ), 1, 2] ∧
      longest_streak [0, 1, 2] = longestRun [0, 1, 2] ∧
      longest_streak [0, 1, 2] = 3 := by
  refine ⟨by decide, (longest_streak_eq_longestRun [0, 1, 2] (by decide)).1, by decide⟩

/-! ## Score-to-handicap lookup (`src/pages/2_Short_Game_Testing.py`)

A lookup-table row, `{"score": ..., "handicap": ...}` in the code. -/
structure TableEntry where
  score : ℤ
  handicap : ℚ
deriving DecidableEq

/-- `score_to_handicap` from `src/pages/2_Short_Game_Testing.py` (with the
shot type's table passed explicitly):
```
for entry in table:
    if entry["score"] == score:
        return entry["handicap"]
if not table:
    return None
scores = [e["score"] for e in table]
if score < min(scores):
    return table[0]["handicap"]  # worst
if score > max(scores):
    return table[-1]["handicap"]  # best
return None
```
-/
def score_to_handicap (table : List TableEntry) (raw : ℤ) : Option ℚ :=
  match table.find? (fun e => decide (e.score = raw)) with
  | some e => some e.handicap
  | none =>
    match table with
    | [] => none
    | e :: rest =>
      if raw < (rest.map TableEntry.score).foldl min e.score then some e.handicap
      else if (rest.map TableEntry.score).foldl max e.score < raw then
        some (((e :: rest).getLast (List.cons_ne_nil e rest)).handicap)
      else none

theorem foldlMin_mem : ∀ (xs : List ℤ) (a : ℤ), xs.foldl min a ∈ a :: xs := by
  intro xs
  induction xs with
  | nil => intro a; simp
  | cons x xs ih =>
    intro a
    simp only [List.foldl_cons]
    rcases List.mem_cons.mp (ih (min a x)) with h | h
    · rcases min_choice a x with hm | hm <;> rw [h, hm]
      · exact List.mem_cons_self a (x :: xs)
      · exact List.mem_cons_of_mem a (List.mem_cons_self x xs)
    · exact List.mem_cons_of_mem a (List.mem_cons_of_mem x h)

theorem foldlMin_le : ∀ (xs : List ℤ) (a : ℤ), ∀ x ∈ a :: xs, xs.foldl min a ≤ x := by
  intro xs
  induction xs with
  | nil =>
    intro a x hx
    simp at hx
    simp [hx]
  | cons y ys ih =>
    intro a x hx
    simp only [List.foldl_cons]
    have hhead : ys.foldl min (min a y) ≤ min a y :=
      ih (min a y) (min a y) (List.mem_cons_self _ _)
    rcases List.mem_cons.mp hx with h1 | hx2
    · rw [h1]
      exact le_trans hhead (min_le_left a y)
    · rcases List.mem_cons.mp hx2 with h2 | h3
      · rw [h2]
        exact le_trans hhead (min_le_right a y)
      · exact ih (min a y) x (List.mem_cons_of_mem _ h3)

theorem foldlMax_mem : ∀ (xs : List ℤ) (a : ℤ), xs.foldl max a ∈ a :: xs := by
  intro xs
  induction xs with
  | nil => intro a; simp
  | cons x xs ih =>
    intro a
    simp only [List.foldl_cons]
    rcases List.mem_cons.mp (ih (max a x)) with h | h
    · rcases max_choice a x with hm | hm <;> rw [h, hm]
      · exact List.mem_cons_self a (x :: xs)
      · exact List.mem_cons_of_mem a (List.mem_cons_self x xs)
    · exact List.mem_cons_of_mem a (List.mem_cons_of_mem x h)

theorem foldlMax_ge : ∀ (xs : List ℤ) (a : ℤ), ∀ x ∈ a :: xs, x ≤ xs.foldl max a := by
  intro xs
  induction xs with
  | nil =>
    intro a x hx
    simp at hx
    simp [hx]
  | cons y ys ih =>
    intro a x hx
    simp only [List.foldl_cons]
    have hhead : max a y ≤ ys.foldl max (max a y) :=
      ih (max a y) (max a y) (List.mem_cons_self _ _)
    rcases List.mem_cons.mp hx with h1 | hx2
    · rw [h1]
      exact le_trans (le_max_left a y) hhead
    · rcases List.mem_cons.mp hx2 with h2 | h3
      · rw [h2]
        exact le_trans (le_max_right a y) hhead
      · exact ih (max a y) x (List.mem_cons_of_mem _ h3)

theorem pairwise_score_unique : ∀ (table : List TableEntry),
    table.Pairwise (fun e₁ e₂ => e₁.score < e₂.score) →
    ∀ e ∈ table, ∀ e₁ ∈ table, e.score = e₁.score → e = e₁ := by
  intro table
  induction table with
  | nil => intro _ e he; simp at he
  | cons x xs ih =>
    intro hp e he e₁ he₁ hscore
    have hx := (List.pairwise_cons.mp hp).1
    have hxs := (List.pairwise_cons.mp hp).2
    rcases List.mem_cons.mp he with rfl | he2
    · rcases List.mem_cons.mp he₁ with rfl | he₁2
      · rfl
      · exact absurd hscore (ne_of_lt (hx e₁ he₁2))
    · rcases List.mem_cons.mp he₁ with rfl | he₁2
      · exact absurd hscore.symm (ne_of_lt (hx e he2))
      · exact ih hxs e he2 e₁ he₁2 hscore

theorem sorted_score_le_getLast : ∀ (table : List TableEntry) (h : table ≠ []),
    table.Pairwise (fun e₁ e₂ => e₁.score < e₂.score) →
    ∀ e ∈ table, e.score ≤ (table.getLast h).score := by
  intro table
  induction table with
  | nil => intro h; exact absurd rfl h
  | cons x xs ih =>
    intro _ hp e he
    have hx := (List.pairwise_cons.mp hp).1
    have hxs := (List.pairwise_cons.mp hp).2
    by_cases hxs_nil : xs = []
    · subst hxs_nil
      simp at he
      simp [he]
    · rw [List.getLast_cons hxs_nil]
      rcases List.mem_cons.mp he with h1 | he2
      · rw [h1]
        exact le_of_lt (hx _ (List.getLast_mem hxs_nil))
      · exact ih hxs_nil hxs e he2

/-- C4 (confirmed): for every non-empty lookup table ordered by score
ascending with unique scores and every integer raw score: an exact score
match returns that entry's handicap; a raw score below the minimum table
score returns the handicap of the minimum-score (worst) entry; a raw
score above the maximum table score returns the handicap of the
maximum-score (best) entry. -/
theorem score_to_handicap_clamps (table : List TableEntry) (raw : ℤ)
    (hsorted : table.Pairwise (fun e₁ e₂ => e₁.score < e₂.score))
    (hne : table ≠ []) :
    (∀ e ∈ table, e.score = raw → score_to_handicap table raw = some e.handicap) ∧
    ((∀ e ∈ table, raw < e.score) →
      ∃ e₀ ∈ table, score_to_handicap table raw = some e₀.handicap ∧
        ∀ e ∈ table, e₀.score ≤ e.score) ∧
    ((∀ e ∈ table, e.score < raw) →
      ∃ e₀ ∈ table, score_to_handicap table raw = some e₀.handicap ∧
        ∀ e ∈ table, e.score ≤ e₀.score) := by
  refine ⟨?_, ?_, ?_⟩
  · -- exact match
    intro e he hescore
    cases hfind : table.find? (fun e' => decide (e'.score = raw)) with
    | none =>
      have := List.find?_eq_none.mp hfind e he
      simp [hescore] at this
    | some e' =>
      have he'mem : e' ∈ table := List.mem_of_find?_eq_some hfind
      have he'score : e'.score = raw := by
        have := List.find?_some hfind
        simpa using this
      have : e' = e := pairwise_score_unique table hsorted e' he'mem e he
        (he'score.trans hescore.symm)
      subst this
      unfold score_to_handicap
      rw [hfind]
  · -- clamp low
    intro hlow
    cases hfind : table.find? (fun e' => decide (e'.score = raw)) with
    | some e' =>
      have he'mem : e' ∈ table := List.mem_of_find?_eq_some hfind
      have he'score : e'.score = raw := by
        have := List.find?_some hfind
        simpa using this
      exact absurd he'score (ne_of_gt (hlow e' he'mem))
    | none =>
      cases table with
      | nil => exact absurd rfl hne
      | cons e rest =>
        have hmn : raw < (rest.map TableEntry.score).foldl min e.score := by
          rcases List.mem_cons.mp (foldlMin_mem (rest.map TableEntry.score) e.score)
            with h | h
          · rw [h]
            exact hlow e (List.mem_cons_self e rest)
          · obtain ⟨e₁, he₁, hs₁⟩ := List.mem_map.mp h
            rw [← hs₁]
            exact hlow e₁ (List.mem_cons_of_mem e he₁)
        have hres : score_to_handicap (e :: rest) raw = some e.handicap := by
          unfold score_to_handicap
          rw [hfind]
          simp only [if_pos hmn]
        refine ⟨e, List.mem_cons_self e rest, hres, ?_⟩
        intro e' he'
        rcases List.mem_cons.mp he' with h1 | he'2
        · rw [h1]
        · exact le_of_lt ((List.pairwise_cons.mp hsorted).1 e' he'2)
  · -- clamp high
    intro hhigh
    cases hfind : table.find? (fun e' => decide (e'.score = raw)) with
    | some e' =>
      have he'mem : e' ∈ table := List.mem_of_find?_eq_some hfind
      have he'score : e'.score = raw := by
        have := List.find?_some hfind
        simpa using this
      exact absurd he'score (ne_of_lt (hhigh e' he'mem))
    | none =>
      cases table with
      | nil => exact absurd rfl hne
      | cons e rest =>
        have hmn : ¬ raw < (rest.map TableEntry.score).foldl min e.score := by
          rcases List.mem_cons.mp (foldlMin_mem (rest.map TableEntry.score) e.score)
            with h | h
          · rw [h]
            have := hhigh e (List.mem_cons_self e rest)
            omega
          · obtain ⟨e₁, he₁, hs₁⟩ := List.mem_map.mp h
            rw [← hs₁]
            have := hhigh e₁ (List.mem_cons_of_mem e he₁)
            omega
        have hmx : (rest.map TableEntry.score).foldl max e.score < raw := by
          rcases List.mem_cons.mp (foldlMax_mem (rest.map TableEntry.score) e.score)
            with h | h
          · rw [h]
            exact hhigh e (List.mem_cons_self e rest)
          · obtain ⟨e₁, he₁, hs₁⟩ := List.mem_map.mp h
            rw [← hs₁]
            exact hhigh e₁ (List.mem_cons_of_mem e he₁)
        have hres : score_to_handicap (e :: rest) raw
            = some (((e :: rest).getLast (List.cons_ne_nil e rest)).handicap) := by
          unfold score_to_handicap
          rw [hfind]
          simp only [if_neg hmn, if_pos hmx]
        refine ⟨(e :: rest).getLast (List.cons_ne_nil e rest),
          List.getLast_mem (List.cons_ne_nil e rest), hres, ?_⟩
        exact sorted_score_le_getLast (e :: rest) (List.cons_ne_nil e rest) hsorted

/-- C4 (witness): the clamping lookup at the spec's concrete table
`[(10, 5.0), (20, 1.0)]`: score 10 matches exactly (5.0), score 5 clamps
low to the worst entry (5.0), score 25 clamps high to the best entry
(1.0). -/
theorem score_to_handicap_clamps_witness :
    score_to_handicap [⟨10, 5⟩, ⟨20, 1⟩] 10 = some 5 ∧
      score_to_handicap [⟨10, 5⟩, ⟨20, 1⟩] 5 = some 5 ∧
      score_to_handicap [⟨10, 5⟩, ⟨20, 1⟩] 25 = some 1 := by
  refine ⟨?_, ?_, ?_⟩
  · exact (score_to_handicap_clamps [⟨10, 5⟩, ⟨20, 1⟩] 10 (by decide) (by decide)).1
      ⟨10, 5⟩ (List.mem_cons_self _ _) rfl
  · obtain ⟨e₀, he₀, hres, hmin⟩ :=
      (score_to_handicap_clamps [⟨10, 5⟩, ⟨20, 1⟩] 5 (by decide) (by decide)).2.1
        (by decide)
    have he : e₀ = (⟨10, 5⟩ : TableEntry) := by
      rcases List.mem_cons.mp he₀ with h1 | h2
      · exact h1
      · rcases List.mem_cons.mp h2 with h3 | h4
        · have := hmin ⟨10, 5⟩ (List.mem_cons_self _ _)
          rw [h3] at this
          exact absurd this (by decide)
        · simp at h4
    rw [he] at hres
    exact hres
  · obtain ⟨e₀, he₀, hres, hmax⟩ :=
      (score_to_handicap_clamps [⟨10, 5⟩, ⟨20, 1⟩] 25 (by decide) (by decide)).2.2
        (by decide)
    have he : e₀ = (⟨20, 1⟩ : TableEntry) := by
      rcases List.mem_cons.mp he₀ with h1 | h2
      · have := hmax ⟨20, 1⟩ (List.mem_cons_of_mem _ (List.mem_cons_self _ _))
        rw [h1] at this
        exact absurd this (by decide)
      · rcases List.mem_cons.mp h2 with h3 | h4
        · exact h3
        · simp at h4
    rw [he] at hres
    exact hres

/-- C5 (confirmed): `score_to_handicap` returns the "not available"
sentinel `None` — distinct by construction from every numeric handicap —
exactly when the table is empty, or the raw score has no exact match and
falls strictly between the table's minimum and maximum scores (here
phrased as: some entry scores strictly below and some entry scores
strictly above the raw score); being a total function it never raises,
and in every other case (exact match or out-of-range score) it returns
`some` handicap. -/
theorem score_to_handicap_none_iff (table : List TableEntry) (raw : ℤ) :
    score_to_handicap table raw = none ↔
      table = [] ∨ ((∀ e ∈ table, e.score ≠ raw) ∧
        (∃ e₁ ∈ table, e₁.score < raw) ∧ (∃ e₂ ∈ table, raw < e₂.score)) := by
  cases hfind : table.find? (fun e' => decide (e'.score = raw)) with
  | some e' =>
    have he'mem : e' ∈ table := List.mem_of_find?_eq_some hfind
    have he'score : e'.score = raw := by
      have := List.find?_some hfind
      simpa using this
    have hres : score_to_handicap table raw = some e'.handicap := by
      unfold score_to_handicap
      rw [hfind]
    rw [hres]
    apply iff_of_false (by simp)
    rintro (heq | ⟨hno, -, -⟩)
    · rw [heq] at he'mem
      simp at he'mem
    · exact hno e' he'mem he'score
  | none =>
    have hno : ∀ e ∈ table, e.score ≠ raw := by
      intro e he
      have := List.find?_eq_none.mp hfind e he
      simpa using this
    cases table with
    | nil =>
      have hres : score_to_handicap [] raw = none := by
        unfold score_to_handicap
        rw [hfind]
      rw [hres]
      simp
    | cons e rest =>
      have hres : score_to_handicap (e :: rest) raw
          = (if raw < (rest.map TableEntry.score).foldl min e.score then some e.handicap
            else if (rest.map TableEntry.score).foldl max e.score < raw then
              some (((e :: rest).getLast (List.cons_ne_nil e rest)).handicap)
            else none) := by
        unfold score_to_handicap
        rw [hfind]
      have hmn_mem : ∃ e₁ ∈ e :: rest,
          e₁.score = (rest.map TableEntry.score).foldl min e.score := by
        rcases List.mem_cons.mp (foldlMin_mem (rest.map TableEntry.score) e.score)
          with h | h
        · exact ⟨e, List.mem_cons_self e rest, h.symm⟩
        · obtain ⟨e₁, he₁, hs₁⟩ := List.mem_map.mp h
          exact ⟨e₁, List.mem_cons_of_mem e he₁, hs₁⟩
      have hmx_mem : ∃ e₂ ∈ e :: rest,
          e₂.score = (rest.map TableEntry.score).foldl max e.score := by
        rcases List.mem_cons.mp (foldlMax_mem (rest.map TableEntry.score) e.score)
          with h | h
        · exact ⟨e, List.mem_cons_self e rest, h.symm⟩
        · obtain ⟨e₂, he₂, hs₂⟩ := List.mem_map.mp h
          exact ⟨e₂, List.mem_cons_of_mem e he₂, hs₂⟩
      have hmn_le : ∀ e' ∈ e :: rest,
          (rest.map TableEntry.score).foldl min e.score ≤ e'.score := by
        intro e' he'
        apply foldlMin_le
        rcases List.mem_cons.mp he' with h1 | h2
        · rw [h1]
          exact List.mem_cons_self _ _
        · exact List.mem_cons_of_mem _ (List.mem_map_of_mem TableEntry.score h2)
      have hmx_ge : ∀ e' ∈ e :: rest,
          e'.score ≤ (rest.map TableEntry.score).foldl max e.score := by
        intro e' he'
        apply foldlMax_ge
        rcases List.mem_cons.mp he' with h1 | h2
        · rw [h1]
          exact List.mem_cons_self _ _
        · exact List.mem_cons_of_mem _ (List.mem_map_of_mem TableEntry.score h2)
      rw [hres]
      by_cases h1 : raw < (rest.map TableEntry.score).foldl min e.score
      · rw [if_pos h1]
        apply iff_of_false (by simp)
        rintro (heq | ⟨-, ⟨e₁, he₁, hlt⟩, -⟩)
        · exact List.cons_ne_nil e rest heq
        · have := hmn_le e₁ he₁
          omega
      · by_cases h2 : (rest.map TableEntry.score).foldl max e.score < raw
        · rw [if_neg h1, if_pos h2]
          apply iff_of_false (by simp)
          rintro (heq | ⟨-, -, ⟨e₂, he₂, hgt⟩⟩)
          · exact List.cons_ne_nil e rest heq
          · have := hmx_ge e₂ he₂
            omega
        · rw [if_neg h1, if_neg h2]
          apply iff_of_true rfl
          right
          refine ⟨hno, ?_, ?_⟩
          · obtain ⟨e₁, he₁, hs₁⟩ := hmn_mem
            have hne := hno e₁ he₁
            refine ⟨e₁, he₁, ?_⟩
            omega
          · obtain ⟨e₂, he₂, hs₂⟩ := hmx_mem
            have hne := hno e₂ he₂
            refine ⟨e₂, he₂, ?_⟩
            omega

/-! ## The wedge-ladder grading (`src/pages/5_Wedge_Ladder.py`)

One per-threshold record, `{"within": ..., "total": ..., "pct": ...}` in
the code; `rnd1` models Python's `round(pct, 1)` (rounding to the
nearest tenth). -/
structure GradeStat where
  within : ℕ
  total : ℕ
  pct : ℚ
deriving DecidableEq

def rnd1 (q : ℚ) : ℚ := (round (10 * q) : ℤ) / 10

/-- One entry of the per-threshold statistics of `calculate_grade`:
```
within = sum(1 for d in diffs if d <= threshold)
pct = within / n * 100
stats[threshold] = {"within": within, "total": n, "pct": round(pct, 1)}
```
with `diffs = [abs(t - a) for t, a in zip(targets, actuals)]` and
`n = len(targets)`. -/
def gradeStats (targets actuals : List ℚ) (thr : ℚ) : GradeStat :=
  let diffs := (targets.zip actuals).map fun p => |p.1 - p.2|
  let within := (diffs.filter fun d => decide (d ≤ thr)).length
  { within := within, total := targets.length,
    pct := rnd1 ((within : ℚ) / (targets.length : ℚ) * 100) }

/-- `calculate_grade` from `src/pages/5_Wedge_Ladder.py`: `n == 0` yields
`(0, {})`; otherwise the stats dict over thresholds 5, 4, 3, 2 (in
insertion order, modelled as an association list) and the sequential
grade assignment
```
grade = 0
if stats[5]["pct"] >= 50: grade = 1
if stats[5]["pct"] >= 70: grade = 2
if stats[4]["pct"] >= 70: grade = 3
if stats[3]["pct"] >= 70: grade = 4
if stats[2]["pct"] >= 70: grade = 5
```
-/
def calculate_grade (targets actuals : List ℚ) : ℕ × List (ℚ × GradeStat) :=
  if targets.length = 0 then (0, [])
  else
    let stats := [(5 : ℚ), 4, 3, 2].map fun thr => (thr, gradeStats targets actuals thr)
    let g1 : ℕ := if 50 ≤ (gradeStats targets actuals 5).pct then 1 else 0
    let g2 : ℕ := if 70 ≤ (gradeStats targets actuals 5).pct then 2 else g1
    let g3 : ℕ := if 70 ≤ (gradeStats targets actuals 4).pct then 3 else g2
    let g4 : ℕ := if 70 ≤ (gradeStats targets actuals 3).pct then 4 else g3
    let g5 : ℕ := if 70 ≤ (gradeStats targets actuals 2).pct then 5 else g4
    (g5, stats)

/-- The condition under which grade tier `k` is earned, read off the
recorded per-threshold percentages (the grade ladder of the `GRADES`
table: 1 and 2 gate on the within-5 rate at 50% and 70%, tiers 3, 4, 5
gate on the within-4, within-3, within-2 rates at 70%). -/
def tierPass (targets actuals : List ℚ) : ℕ → Bool
  | 1 => decide (50 ≤ (gradeStats targets actuals 5).pct)
  | 2 => decide (70 ≤ (gradeStats targets actuals 5).pct)
  | 3 => decide (70 ≤ (gradeStats targets actuals 4).pct)
  | 4 => decide (70 ≤ (gradeStats targets actuals 3).pct)
  | 5 => decide (70 ≤ (gradeStats targets actuals 2).pct)
  | _ => false

theorem tierPass_le_five (targets actuals : List ℚ) (k : ℕ)
    (h : tierPass targets actuals k = true) : k ≤ 5 := by
  by_contra hk
  obtain ⟨m, rfl⟩ : ∃ m, k = m + 6 := ⟨k - 6, by omega⟩
  exact absurd h (by simp [tierPass])

theorem filter_abs_length : ∀ (l : List (ℚ × ℚ)) (thr : ℚ),
    ((l.map fun p => |p.1 - p.2|).filter fun d => decide (d ≤ thr)).length
      = (l.filter fun p => decide (|p.1 - p.2| ≤ thr)).length := by
  intro l thr
  induction l with
  | nil => rfl
  | cons p ps ih =>
    simp only [List.map_cons, List.filter_cons]
    cases hcond : decide (|p.1 - p.2| ≤ thr) <;> simp [hcond, ih]

/-- C3 (confirmed): for every pair of equal-length numeric sequences, for
each tolerance in the descending set (5, 4, 3, 2) the returned stats
record the count, the total (the number of targets), and the recorded
percentage of positional pairs whose absolute difference is within that
tolerance; the returned grade is the highest tier whose condition is
satisfied — 1 if the within-5 rate is ≥ 50%, 2 if it is ≥ 70%, and
3, 4, 5 as the within-4, within-3, within-2 rates each reach ≥ 70% — and
0 otherwise; length-0 input yields grade 0 and empty stats. -/
theorem calculate_grade_spec (targets actuals : List ℚ)
    (hlen : targets.length = actuals.length) :
    (targets = [] → calculate_grade targets actuals = (0, [])) ∧
    (∀ thr st, (thr, st) ∈ (calculate_grade targets actuals).2 →
      (thr = 5 ∨ thr = 4 ∨ thr = 3 ∨ thr = 2) ∧
      st.within
        = ((targets.zip actuals).filter fun p => decide (|p.1 - p.2| ≤ thr)).length ∧
      st.total = targets.length ∧
      st.pct = rnd1 ((st.within : ℚ) / (targets.length : ℚ) * 100)) ∧
    (∀ k : ℕ, tierPass targets actuals k = true →
      k ≤ (calculate_grade targets actuals).1) ∧
    ((calculate_grade targets actuals).1 = 0 ∨
      tierPass targets actuals (calculate_grade targets actuals).1 = true) := by
  have t1 : tierPass targets actuals 1
      = decide (50 ≤ (gradeStats targets actuals 5).pct) := rfl
  have t2 : tierPass targets actuals 2
      = decide (70 ≤ (gradeStats targets actuals 5).pct) := rfl
  have t3 : tierPass targets actuals 3
      = decide (70 ≤ (gradeStats targets actuals 4).pct) := rfl
  have t4 : tierPass targets actuals 4
      = decide (70 ≤ (gradeStats targets actuals 3).pct) := rfl
  have t5 : tierPass targets actuals 5
      = decide (70 ≤ (gradeStats targets actuals 2).pct) := rfl
  refine ⟨?_, ?_, ?_, ?_⟩
  · rintro rfl
    simp [calculate_grade]
  · intro thr st hmem
    by_cases hnil : targets.length = 0
    · rw [show calculate_grade targets actuals = (0, []) from by
        simp [calculate_grade, hnil]] at hmem
      simp at hmem
    · simp only [calculate_grade, if_neg hnil, List.map_cons, List.map_nil] at hmem
      simp only [List.mem_cons, List.not_mem_nil, or_false] at hmem
      rcases hmem with h | h | h | h <;>
        (rw [Prod.ext_iff] at h
         obtain ⟨h1, h2⟩ := h
         simp only at h1 h2
         subst h1
         subst h2)
      · exact ⟨by norm_num, filter_abs_length _ _, rfl, rfl⟩
      · exact ⟨by norm_num, filter_abs_length _ _, rfl, rfl⟩
      · exact ⟨by norm_num, filter_abs_length _ _, rfl, rfl⟩
      · exact ⟨by norm_num, filter_abs_length _ _, rfl, rfl⟩
  · intro k hk
    have hk5 : k ≤ 5 := tierPass_le_five targets actuals k hk
    by_cases hnil : targets.length = 0
    · have ht : targets = [] := List.length_eq_zero.mp hnil
      subst ht
      have hpct : ∀ thr : ℚ, (gradeStats [] actuals thr).pct = 0 := by
        intro thr
        simp [gradeStats, rnd1]
      interval_cases k
      · exact Nat.zero_le _
      · rw [t1, hpct 5] at hk
        exact absurd (of_decide_eq_true hk) (by norm_num)
      · rw [t2, hpct 5] at hk
        exact absurd (of_decide_eq_true hk) (by norm_num)
      · rw [t3, hpct 4] at hk
        exact absurd (of_decide_eq_true hk) (by norm_num)
      · rw [t4, hpct 3] at hk
        exact absurd (of_decide_eq_true hk) (by norm_num)
      · rw [t5, hpct 2] at hk
        exact absurd (of_decide_eq_true hk) (by norm_num)
    · simp only [calculate_grade, if_neg hnil]
      split_ifs with hb5 hb4 hb3 hb2 hb1
      · exact hk5
      · have h5 : k ≠ 5 := by
          intro h
          subst h
          rw [t5] at hk
          exact hb5 (of_decide_eq_true hk)
        omega
      · have h5 : k ≠ 5 := by
          intro h; subst h; rw [t5] at hk
          exact hb5 (of_decide_eq_true hk)
        have h4 : k ≠ 4 := by
          intro h; subst h; rw [t4] at hk
          exact hb4 (of_decide_eq_true hk)
        omega
      · have h5 : k ≠ 5 := by
          intro h; subst h; rw [t5] at hk
          exact hb5 (of_decide_eq_true hk)
        have h4 : k ≠ 4 := by
          intro h; subst h; rw [t4] at hk
          exact hb4 (of_decide_eq_true hk)
        have h3 : k ≠ 3 := by
          intro h; subst h; rw [t3] at hk
          exact hb3 (of_decide_eq_true hk)
        omega
      · have h5 : k ≠ 5 := by
          intro h; subst h; rw [t5] at hk
          exact hb5 (of_decide_eq_true hk)
        have h4 : k ≠ 4 := by
          intro h; subst h; rw [t4] at hk
          exact hb4 (of_decide_eq_true hk)
        have h3 : k ≠ 3 := by
          intro h; subst h; rw [t3] at hk
          exact hb3 (of_decide_eq_true hk)
        have h2 : k ≠ 2 := by
          intro h; subst h; rw [t2] at hk
          exact hb2 (of_decide_eq_true hk)
        omega
      · have h5 : k ≠ 5 := by
          intro h; subst h; rw [t5] at hk
          exact hb5 (of_decide_eq_true hk)
        have h4 : k ≠ 4 := by
          intro h; subst h; rw [t4] at hk
          exact hb4 (of_decide_eq_true hk)
        have h3 : k ≠ 3 := by
          intro h; subst h; rw [t3] at hk
          exact hb3 (of_decide_eq_true hk)
        have h2 : k ≠ 2 := by
          intro h; subst h; rw [t2] at hk
          exact hb2 (of_decide_eq_true hk)
        have h1 : k ≠ 1 := by
          intro h; subst h; rw [t1] at hk
          exact hb1 (of_decide_eq_true hk)
        have h0 : k ≠ 0 := by
          intro h
          subst h
          exact absurd hk (by simp [tierPass])
        omega
  · by_cases hnil : targets.length = 0
    · left
      simp [calculate_grade, hnil]
    · simp only [calculate_grade, if_neg hnil]
      split_ifs with hb5 hb4 hb3 hb2 hb1
      · right
        rw [t5]
        exact decide_eq_true hb5
      · right
        rw [t4]
        exact decide_eq_true hb4
      · right
        rw [t3]
        exact decide_eq_true hb3
      · right
        rw [t2]
        exact decide_eq_true hb2
      · right
        rw [t1]
        exact decide_eq_true hb1
      · left
        rfl

/-- C3 (witness): the spec's grading test vector — targets all 100 and
actuals `[100, 100, 94, 107]` (diffs 0, 0, 6, 7): the within-5 pass rate
is 50%, tier 1 passes, and the returned grade is exactly 1. -/
theorem calculate_grade_spec_witness :
    ([100, 100, 100, 100] : List ℚ).length = ([100, 100, 94, 107] : List ℚ).length ∧
      tierPass [100, 100, 100, 100] [100, 100, 94, 107] 1 = true ∧
      1 ≤ (calculate_grade [100, 100, 100, 100] [100, 100, 94, 107]).1 ∧
      (calculate_grade [100, 100, 100, 100] [100, 100, 94, 107]).1 = 1 := by
  have hpass : tierPass [100, 100, 100, 100] [100, 100, 94, 107] 1 = true := by
    rw [show tierPass [(100 : ℚ), 100, 100, 100] [100, 100, 94, 107] 1
      = decide (50 ≤ (gradeStats [100, 100, 100, 100] [100, 100, 94, 107] 5).pct)
      from rfl]
    rw [decide_eq_true_eq]
    norm_num [gradeStats, rnd1, round_eq, List.zip, List.filter]
  refine ⟨by norm_num, hpass, ?_, ?_⟩
  · exact (calculate_grade_spec [100, 100, 100, 100] [100, 100, 94, 107]
      (by norm_num)).2.2.1 1 hpass
  · norm_num [calculate_grade, gradeStats, rnd1, round_eq, List.zip, List.filter]

theorem zip_take_length : ∀ (t a : List ℚ), t.zip a = t.zip (a.take t.length) := by
  intro t
  induction t with
  | nil => intro a; simp
  | cons x xs ih =>
    intro a
    cases a with
    | nil => simp
    | cons y ys =>
      simp only [List.length_cons, List.take_succ_cons, List.zip_cons_cons]
      rw [← ih ys]

/-- C10 (confirmed): `calculate_grade` on sequences of unequal length (a
total function in this embedding — `zip` truncates, so nothing raises):
pairs are compared positionally only up to the length of the shorter
sequence — extra actual values beyond the targets are ignored entirely —
while every per-threshold percentage keeps the length of `targets` as
its denominator, so when `actuals` is shorter each unpaired target is
absent from the `within` count of every pass rate. -/
theorem calculate_grade_positional (targets actuals : List ℚ) :
    calculate_grade targets actuals
        = calculate_grade targets (actuals.take targets.length) ∧
    (∀ thr st, (thr, st) ∈ (calculate_grade targets actuals).2 →
      st.total = targets.length ∧
      st.within ≤ min targets.length actuals.length ∧
      st.pct = rnd1 ((st.within : ℚ) / (targets.length : ℚ) * 100)) := by
  constructor
  · have hgs : ∀ thr : ℚ, gradeStats targets actuals thr
        = gradeStats targets (actuals.take targets.length) thr := by
      intro thr
      unfold gradeStats
      rw [← zip_take_length]
    simp only [calculate_grade, hgs]
  · intro thr st hmem
    have hwithin : ∀ thr' : ℚ, (gradeStats targets actuals thr').within
        ≤ min targets.length actuals.length := by
      intro thr'
      have h1 := List.length_filter_le (fun d => decide (d ≤ thr'))
        ((targets.zip actuals).map fun p => |p.1 - p.2|)
      have h2 : ((targets.zip actuals).map fun p => |p.1 - p.2|).length
          = min targets.length actuals.length := by
        simp
      simp only [gradeStats]
      omega
    by_cases hnil : targets.length = 0
    · rw [show calculate_grade targets actuals = (0, []) from by
        simp [calculate_grade, hnil]] at hmem
      simp at hmem
    · simp only [calculate_grade, if_neg hnil, List.map_cons, List.map_nil] at hmem
      simp only [List.mem_cons, List.not_mem_nil, or_false] at hmem
      rcases hmem with h | h | h | h <;>
        (rw [Prod.ext_iff] at h
         obtain ⟨h1, h2⟩ := h
         simp only at h1 h2
         subst h1
         subst h2) <;>
        exact ⟨rfl, hwithin _, rfl⟩

/-! ## The rolling-average transform

`rolling_mean` models the pandas call
`series.rolling(window=w, min_periods=1).mean()` used for
`plot_df["moving_avg"]` in `src/pages/2_Short_Game_Testing.py` and
`trend_df["grade_ma"]` in `src/pages/5_Wedge_Ladder.py`: scanning the
series left to right, each output is the mean of the trailing window of
at most `w` observations ending at the current position (`min_periods=1`
makes the shortened windows at the start defined rather than missing).
`pre` is the already-scanned prefix and `lastN w` keeps the last `w`
elements of it. -/
def lastN (w : ℕ) (l : List ℚ) : List ℚ := l.drop (l.length - w)

def rollingMeanGo (w : ℕ) : List ℚ → List ℚ → List ℚ
  | _, [] => []
  | pre, x :: rest =>
    ((lastN w (pre ++ [x])).sum / ((lastN w (pre ++ [x])).length : ℚ))
      :: rollingMeanGo w (pre ++ [x]) rest

def rolling_mean (w : ℕ) (s : List ℚ) : List ℚ := rollingMeanGo w [] s

theorem rollingMeanGo_length (w : ℕ) :
    ∀ (s pre : List ℚ), (rollingMeanGo w pre s).length = s.length := by
  intro s
  induction s with
  | nil => intro pre; rfl
  | cons x rest ih =>
    intro pre
    simp only [rollingMeanGo, List.length_cons, ih (pre ++ [x])]

theorem rollingMeanGo_get (w : ℕ) :
    ∀ (s pre : List ℚ) (i : ℕ), i < s.length →
      (rollingMeanGo w pre s)[i]?
        = some ((lastN w (pre ++ s.take (i + 1))).sum
            / ((lastN w (pre ++ s.take (i + 1))).length : ℚ)) := by
  intro s
  induction s with
  | nil => intro pre i hi; simp at hi
  | cons x rest ih =>
    intro pre i hi
    cases i with
    | zero =>
      simp only [rollingMeanGo, List.getElem?_cons_zero, List.take_succ_cons,
        List.take_zero]
    | succ i =>
      simp only [rollingMeanGo, List.getElem?_cons_succ]
      have := ih (pre ++ [x]) i (by simp at hi; omega)
      rw [this]
      simp only [List.take_succ_cons, List.append_assoc, List.singleton_append]

/-- C6 (confirmed): for every numeric series and every window ≥ 1, the
rolling average has the same length as its input, its value at 0-indexed
position `i` is the mean of the last `min(i+1, window)` input values
ending at `i`, and the first output always equals the first input value
even when the window exceeds 1. -/
theorem rolling_mean_spec (w : ℕ) (s : List ℚ) (hw : 1 ≤ w) :
    (rolling_mean w s).length = s.length ∧
    (∀ i, i < s.length →
      (rolling_mean w s)[i]?
        = some (((s.take (i + 1)).drop (i + 1 - min (i + 1) w)).sum
            / ((min (i + 1) w : ℕ) : ℚ))) ∧
    (∀ x xs, s = x :: xs → (rolling_mean w s)[0]? = some x) := by
  refine ⟨rollingMeanGo_length w s [], ?_, ?_⟩
  · intro i hi
    have hget := rollingMeanGo_get w s [] i hi
    simp only [List.nil_append] at hget
    have hlen_take : (s.take (i + 1)).length = i + 1 := by
      rw [List.length_take]
      omega
    unfold lastN at hget
    rw [hlen_take, show i + 1 - w = i + 1 - min (i + 1) w from by omega] at hget
    have hd : ((s.take (i + 1)).drop (i + 1 - min (i + 1) w)).length = min (i + 1) w := by
      rw [List.length_drop, hlen_take]
      omega
    rw [hd] at hget
    unfold rolling_mean
    exact hget
  · intro x xs hxs
    subst hxs
    have hget := rollingMeanGo_get w (x :: xs) [] 0 (by simp)
    simp only [List.nil_append, List.take_succ_cons, List.take_zero] at hget
    have h1 : lastN w [x] = [x] := by
      simp only [lastN, List.length_cons, List.length_nil]
      rw [show 0 + 1 - w = 0 from by omega]
      rfl
    rw [h1] at hget
    simp only [List.sum_cons, List.sum_nil, List.length_cons, List.length_nil] at hget
    unfold rolling_mean
    rw [hget]
    norm_num

/-- C6 (witness): the spec's rolling-average test vector — series
`[1, 2, 3, 4]` with window 2 gives `[1, 1.5, 2.5, 3.5]`: the first
element is unchanged and the window shrinks at the start. -/
theorem rolling_mean_spec_witness :
    (1 : ℕ) ≤ 2 ∧ (rolling_mean 2 [1, 2, 3, 4]).length = 4 ∧
      rolling_mean 2 [(1 : ℚ), 2, 3, 4] = [1, 3/2, 5/2, 7/2] := by
  refine ⟨by norm_num, ?_, ?_⟩
  · have := (rolling_mean_spec 2 [1, 2, 3, 4] (by norm_num)).1
    simpa using this
  · norm_num [rolling_mean, rollingMeanGo, lastN]

/-! ## Putting-test scoring (`src/pages/6_Putting_Testing.py`) -/

/-- `interp_pts` models `numpy.interp(x, xp, fp)` on the zipped anchor
list: below the first anchor score return the first handicap, above the
last return the last, and between two adjacent anchors interpolate
linearly. -/
def interp_pts : List (ℚ × ℚ) → ℚ → ℚ
  | [], _ => 0
  | [(_, f1)], _ => f1
  | (x1, f1) :: (x2, f2) :: rest, x =>
    if x ≤ x1 then f1
    else if x ≤ x2 then f1 + (f2 - f1) * (x - x1) / (x2 - x1)
    else interp_pts ((x2, f2) :: rest) x

/-- `_SW_SCORES` from `src/pages/6_Putting_Testing.py` (`[0.2, 2.0, 6.3,
10.7]`, written as exact rationals). -/
def _SW_SCORES : List ℚ := [1 / 5, 2, 63 / 10, 107 / 10]

/-- `_SW_HCAPS` from `src/pages/6_Putting_Testing.py` (`[-2, 0, 5, 10]`). -/
def _SW_HCAPS : List ℚ := [-2, 0, 5, 10]

/-- `swedish_putting_handicap` from `src/pages/6_Putting_Testing.py`:
`np.interp(total_score, _SW_SCORES, _SW_HCAPS)`. -/
def swedish_putting_handicap (total_score : ℚ) : ℚ :=
  interp_pts (_SW_SCORES.zip _SW_HCAPS) total_score

/-- `SWEDISH_BENCHMARKS` from `src/pages/6_Putting_Testing.py`. -/
def SWEDISH_BENCHMARKS : List (ℚ × String) :=
  [(-11 / 2, "Tour Player"), (-29 / 10, "European Tour"),
   (-3 / 2, "Challenge Tour"), (1 / 5, "+2 HCP"), (2, "Scratch"),
   (63 / 10, "5 HCP"), (107 / 10, "10 HCP")]

/-- `pyMinBy key x l` models Python's `min(x :: l, key=key)`: scan left
to right keeping the current minimum, replacing it only on a strictly
smaller key — so ties resolve to the first occurrence. -/
def pyMinBy (key : ℚ × String → ℚ) (x : ℚ × String) (l : List (ℚ × String)) : ℚ × String :=
  l.foldl (fun best y => if key y < key best then y else best) x

/-- `swedish_level_label` from `src/pages/6_Putting_Testing.py`:
`min(SWEDISH_BENCHMARKS, key=lambda b: abs(b[0] - total_score))[1]`. -/
def swedish_level_label (total_score : ℚ) : String :=
  (pyMinBy (fun b => |b.1 - total_score|) SWEDISH_BENCHMARKS.headI
    SWEDISH_BENCHMARKS.tail).2

/-- C7 (confirmed): with the fixed anchors
`[(0.2, -2), (2.0, 0), (6.3, 5), (10.7, 10)]`, `swedish_putting_handicap`
clamps to the boundary handicaps −2 and 10 outside the anchor range,
interpolates linearly between adjacent anchors inside it, and returns
exactly the anchor handicap at an anchor score (2.0 ↦ 0); being of type
`ℚ → ℚ` it always returns a numeric value, never a "not available"
sentinel. -/
theorem swedish_putting_handicap_spec (t : ℚ) :
    (t ≤ 1 / 5 → swedish_putting_handicap t = -2) ∧
    (1 / 5 ≤ t → t ≤ 2 →
      swedish_putting_handicap t = -2 + (0 - (-2)) * (t - 1 / 5) / (2 - 1 / 5)) ∧
    (2 ≤ t → t ≤ 63 / 10 →
      swedish_putting_handicap t = 0 + (5 - 0) * (t - 2) / (63 / 10 - 2)) ∧
    (63 / 10 ≤ t → t ≤ 107 / 10 →
      swedish_putting_handicap t
        = 5 + (10 - 5) * (t - 63 / 10) / (107 / 10 - 63 / 10)) ∧
    (107 / 10 ≤ t → swedish_putting_handicap t = 10) ∧
    swedish_putting_handicap 2 = 0 := by
  have hunfold : swedish_putting_handicap t
      = if t ≤ 1 / 5 then -2
        else if t ≤ 2 then -2 + (0 - (-2)) * (t - 1 / 5) / (2 - 1 / 5)
        else if t ≤ 2 then (0 : ℚ)
        else if t ≤ 63 / 10 then 0 + (5 - 0) * (t - 2) / (63 / 10 - 2)
        else if t ≤ 63 / 10 then (5 : ℚ)
        else if t ≤ 107 / 10 then 5 + (10 - 5) * (t - 63 / 10) / (107 / 10 - 63 / 10)
        else 10 := by
    simp only [swedish_putting_handicap, _SW_SCORES, _SW_HCAPS, List.zip_cons_cons,
      List.zip_nil_right, interp_pts]
  refine ⟨?_, ?_, ?_, ?_, ?_, ?_⟩
  · intro h1
    rw [hunfold, if_pos h1]
  · intro h1 h2
    rw [hunfold]
    split_ifs with hb1
    · have ht : t = 1 / 5 := le_antisymm hb1 h1
      subst ht
      norm_num
    · rfl
  · intro h1 h2
    rw [hunfold]
    split_ifs with hb1 hb2
    · linarith
    · have ht : t = 2 := le_antisymm hb2 h1
      subst ht
      norm_num
    · rfl
  · intro h1 h2
    rw [hunfold]
    split_ifs with hb1 hb2 hb3
    · linarith
    · linarith
    · have ht : t = 63 / 10 := le_antisymm hb3 h1
      subst ht
      norm_num
    · rfl
  · intro h1
    rw [hunfold]
    split_ifs with hb1 hb2 hb3 hb4
    · linarith
    · linarith
    · linarith
    · have ht : t = 107 / 10 := le_antisymm hb4 h1
      subst ht
      norm_num
    · rfl
  · simp only [swedish_putting_handicap, _SW_SCORES, _SW_HCAPS, List.zip_cons_cons,
      List.zip_nil_right, interp_pts]
    norm_num

/-- C7 (witness): the theorem at the spec's concrete probes: −10 clamps
to −2, 20 clamps to 10, and the anchor score 2.0 maps exactly to 0. -/
theorem swedish_putting_handicap_spec_witness :
    swedish_putting_handicap (-10) = -2 ∧ swedish_putting_handicap 20 = 10 ∧
      swedish_putting_handicap 2 = 0 :=
  ⟨(swedish_putting_handicap_spec (-10)).1 (by norm_num),
    (swedish_putting_handicap_spec 20).2.2.2.2.1 (by norm_num),
    (swedish_putting_handicap_spec 2).2.2.2.2.2⟩

theorem pyMinBy_first_argmin :
    ∀ (l : List (ℚ × String)) (key : ℚ × String → ℚ) (x : ℚ × String),
      ∃ l₁ l₂, x :: l = l₁ ++ pyMinBy key x l :: l₂ ∧
        (∀ y ∈ x :: l, key (pyMinBy key x l) ≤ key y) ∧
        (∀ y ∈ l₁, key (pyMinBy key x l) < key y) := by
  intro l
  induction l with
  | nil =>
    intro key x
    refine ⟨[], [], rfl, ?_, by simp⟩
    intro y hy
    rcases List.mem_cons.mp hy with h1 | h2
    · rw [h1]
      exact le_rfl
    · simp at h2
  | cons z zs ih =>
    intro key x
    have hstep : pyMinBy key x (z :: zs)
        = pyMinBy key (if key z < key x then z else x) zs := rfl
    by_cases h : key z < key x
    · rw [hstep, if_pos h]
      obtain ⟨l₁, l₂, heq, hmin, hlt⟩ := ih key z
      refine ⟨x :: l₁, l₂, ?_, ?_, ?_⟩
      · rw [List.cons_append, ← heq]
      · intro y hy
        rcases List.mem_cons.mp hy with h1 | h2
        · rw [h1]
          exact le_of_lt (lt_of_le_of_lt (hmin z (List.mem_cons_self z zs)) h)
        · exact hmin y h2
      · intro y hy
        rcases List.mem_cons.mp hy with h1 | h2
        · rw [h1]
          exact lt_of_le_of_lt (hmin z (List.mem_cons_self z zs)) h
        · exact hlt y h2
    · rw [hstep, if_neg h]
      obtain ⟨l₁, l₂, heq, hmin, hlt⟩ := ih key x
      have hxz : key x ≤ key z := le_of_not_lt h
      cases l₁ with
      | nil =>
        simp only [List.nil_append] at heq
        obtain ⟨hx, hzs⟩ := List.cons_eq_cons.mp heq
        refine ⟨[], z :: zs, ?_, ?_, by simp⟩
        · rw [List.nil_append, ← hx]
        · intro y hy
          have hmx : key (pyMinBy key x zs) = key x := by rw [← hx]
          rcases List.mem_cons.mp hy with h1 | h2
          · rw [h1, hmx]
          · rcases List.mem_cons.mp h2 with h3 | h4
            · rw [h3, hmx]
              exact hxz
            · exact hmin y (List.mem_cons_of_mem x h4)
      | cons u us =>
        rw [List.cons_append] at heq
        obtain ⟨hux, hzs⟩ := List.cons_eq_cons.mp heq
        have hmu : key (pyMinBy key x zs) < key x := by
          have := hlt u (List.mem_cons_self u us)
          rw [← hux] at this
          exact this
        refine ⟨x :: z :: us, l₂, ?_, ?_, ?_⟩
        · rw [List.cons_append, List.cons_append, ← hzs]
        · intro y hy
          rcases List.mem_cons.mp hy with h1 | h2
          · rw [h1]
            exact le_of_lt hmu
          · rcases List.mem_cons.mp h2 with h3 | h4
            · rw [h3]
              exact le_of_lt (lt_of_lt_of_le hmu hxz)
            · exact hmin y (List.mem_cons_of_mem x h4)
        · intro y hy
          rcases List.mem_cons.mp hy with h1 | h2
          · rw [h1]
            exact hmu
          · rcases List.mem_cons.mp h2 with h3 | h4
            · rw [h3]
              exact lt_of_lt_of_le hmu hxz
            · exact hlt y (List.mem_cons_of_mem u h4)

/-- C9 (confirmed): `swedish_level_label` returns the label of the
benchmark pair whose score has the smallest absolute difference to the
input, and on a tie the pair occurring first in `SWEDISH_BENCHMARKS`
wins: the returned label sits at a position whose score minimizes
`|score − t|` over the whole list, strictly beaten by no earlier entry. -/
theorem swedish_level_label_closest (t : ℚ) :
    ∃ l₁ l₂ s, SWEDISH_BENCHMARKS = l₁ ++ (s, swedish_level_label t) :: l₂ ∧
      (∀ p ∈ SWEDISH_BENCHMARKS, |s - t| ≤ |p.1 - t|) ∧
      (∀ p ∈ l₁, |s - t| < |p.1 - t|) := by
  obtain ⟨l₁, l₂, heq, hmin, hlt⟩ := pyMinBy_first_argmin SWEDISH_BENCHMARKS.tail
    (fun b => |b.1 - t|) SWEDISH_BENCHMARKS.headI
  have hht : SWEDISH_BENCHMARKS.headI :: SWEDISH_BENCHMARKS.tail = SWEDISH_BENCHMARKS := rfl
  rw [hht] at heq hmin
  refine ⟨l₁, l₂,
    (pyMinBy (fun b => |b.1 - t|) SWEDISH_BENCHMARKS.headI SWEDISH_BENCHMARKS.tail).1,
    ?_, ?_, ?_⟩
  · exact heq
  · intro p hp
    exact hmin p hp
  · intro p hp
    exact hlt p hp
